import Mathlib

/-!
Verification development for the markdown-mirror blog server
(`main.go`, GitHub-backed variant: `syncOnce` / `fetchPosts` / `slugify` /
`extractTitle` / `makeExcerpt` / `savePostsToDisk` / `loadPostsFromDisk`).

Strings are modelled as Lean `String` / `List Char`, i.e. sequences of
Unicode code points, matching Go's rune-level view of its string
operations (`strings.Trim`, `strings.ReplaceAll`, `[]rune`, regexp over
runes).  Whitespace predicates: Go's `unicode.IsSpace` is modelled on its
Latin-1 range; the RE2 class `\s` is exactly the five characters
tab, newline, form feed, carriage return, space.

The HTTP layer (`ghGetJSON`, `ghFetchFile`) and the goldmark renderer
(`md.Convert`) are modelled as oracles inside a `Remote` record: the tree
listing either fails or yields entries, each file fetch either fails or
yields the decoded body, and rendering either fails or yields markup.
-/

/-- RE2 character class `\s` (used by the regexes in the source):
tab, newline, form feed, carriage return, space. -/
def regexWs (c : Char) : Bool :=
  c = ' ' || c = '\t' || c = '\n' || c = '\x0c' || c = '\r'

/-- Go `unicode.IsSpace` restricted to its Latin-1 range:
tab, newline, vertical tab, form feed, carriage return, space,
next line (U+0085), no-break space (U+00A0).  (Space runes above
Latin-1 are not modelled.)  Used by `strings.TrimSpace` and
`strings.Fields`. -/
def goIsSpace (c : Char) : Bool :=
  c = ' ' || c = '\t' || c = '\n' || c = '\x0b' || c = '\x0c' || c = '\r' ||
  c = '\x85' || c = '\xa0'

/-- `strings.ReplaceAll s (String a) (String b)` for single characters. -/
def replaceChar (a b : Char) (l : List Char) : List Char :=
  l.map fun c => if c = a then b else c

/-- `strings.Trim s cutset` for a one-character cutset: remove leading and
trailing occurrences of `a`. -/
def trimCharL (a : Char) (l : List Char) : List Char :=
  (l.dropWhile (· = a)).rdropWhile (· = a)

/-- `strings.TrimSpace`: strip leading and trailing `unicode.IsSpace` runes. -/
def goTrimSpaceL (l : List Char) : List Char :=
  (l.dropWhile goIsSpace).rdropWhile goIsSpace

/-- `strings.TrimPrefix s pre`: drop `pre` when it is a prefix, else return
`s` unchanged. -/
def trimPrefixL (pre l : List Char) : List Char :=
  if pre.isPrefixOf l then l.drop pre.length else l

/-- `strings.TrimSuffix s suf`: drop `suf` when it is a suffix, else return
`s` unchanged. -/
def trimSuffixL (suf l : List Char) : List Char :=
  if suf.isSuffixOf l then l.take (l.length - suf.length) else l

/-- The character class of the regex `reSlugBad` (one or more characters
other than ASCII letters, digits, dash and slash), negated: the
characters `slugify` keeps. -/
def slugOk (c : Char) : Bool :=
  ('a' ≤ c && c ≤ 'z') || ('A' ≤ c && c ≤ 'Z') || ('0' ≤ c && c ≤ '9') ||
  c = '-' || c = '/'

/-- `slugify` from the source, on code-point lists:

    s = strings.Trim(strings.ReplaceAll(s, "\\", "/"), "/")
    s = strings.ReplaceAll(s, " ", "-")
    s = strings.ReplaceAll(s, "_", "-")
    s = reSlugBad.ReplaceAllString(s, "")   // delete all chars not in slugOk
    s = strings.Trim(s, "-")
    s = strings.ReplaceAll(s, "/", "-")
    if s == "" { return "post" }
    return strings.ToLower(s)

`strings.ToLower` is applied to a string that at that point contains only
ASCII `[a-zA-Z0-9-]`, so the ASCII `Char.toLower` is a faithful model of
it here. -/
def slugifyL (l : List Char) : List Char :=
  let s1 := trimCharL '/' (replaceChar '\\' '/' l)
  let s2 := replaceChar '_' '-' (replaceChar ' ' '-' s1)
  let s3 := s2.filter slugOk
  let s4 := replaceChar '/' '-' (trimCharL '-' s3)
  if s4.isEmpty then "post".data else s4.map Char.toLower

/-- `slugify` on `String`. -/
def slugify (s : String) : String :=
  ⟨slugifyL s.data⟩

/-! Title extraction: `extractTitle`.

The source matches `reH1 = (?m)^\s*#\s+(.+?)\s*$` against the document and
returns `strings.TrimSpace` of the first capture (or the empty string when
there is no match).

The model below is derived from RE2/Go `FindStringSubmatch` semantics
(leftmost match; greedy star/plus, lazy question-plus):

* `^` matches at offset 0 and after each newline.  The leading greedy
  `\s*` can only place the following literal `#` at the first
  non-whitespace character at or after the anchor, so the candidate
  positions are exactly the `#` characters preceded on their own line only
  by whitespace, tried in order.
* After the `#`, greedy `\s+` first consumes the maximal whitespace run
  (which may span newlines).  When a non-whitespace character follows that
  run, the lazy `(.+?)` starts there and grows until `\s*$` succeeds,
  which happens exactly at the position after the last non-whitespace
  character of that character's line; the attempt always succeeds, and the
  capture is that line from its first non-whitespace character with
  trailing whitespace removed.
* When the whitespace run after `#` extends to the end of the input,
  backtracking shortens `\s+`; a match (whose capture is a single
  whitespace character, hence a trimmed title of `""`) exists exactly when
  some character after the first one is whitespace other than newline.
* A failed attempt at one candidate `#` moves on to the next anchor.
-/

/-- Whitespace allowed before the `#` on its own line: `\s` minus newline
(a newline would start a new line, i.e. a new anchor). -/
def inlineWs (c : Char) : Bool :=
  regexWs c && !(c = '\n')

/-- Result of the tail `\s+(.+?)\s*$` of `reH1` after a candidate `#`,
already trimmed with `strings.TrimSpace`; `none` when the tail does not
match there (e.g. the character right after `#` is not whitespace). -/
def tailCapture (u : List Char) : Option String :=
  let w := u.takeWhile regexWs
  if w.isEmpty then none
  else
    match u.dropWhile regexWs with
    | [] => if (u.drop 1).any (fun c => !(c = '\n')) then some "" else none
    | c :: v =>
      let line := (c :: v).takeWhile (fun c => !(c = '\n'))
      some ⟨goTrimSpaceL (line.rdropWhile regexWs)⟩

/-- Split into lines at each newline; the pieces never contain the
separator and joining them back with newlines restores the input. -/
def splitNl : List Char → List (List Char)
  | [] => [[]]
  | c :: rest =>
    if c = '\n' then [] :: splitNl rest
    else
      match splitNl rest with
      | [] => [[c]]
      | L :: ls => (c :: L) :: ls

/-- Suffix reconstruction: the characters following the current line, with
their leading newline, given the later lines. -/
def nlJoin : List (List Char) → List Char
  | [] => []
  | ls => '\n' :: ['\n'].intercalate ls

/-- The line scan of `reH1`: at the first line whose first non-whitespace
character is `#`, try the tail of the pattern against everything after
that `#` (which may look past the end of the line); on failure continue
with the next line. -/
def extractLines : List (List Char) → String
  | [] => ""
  | line :: rest =>
    match line.dropWhile inlineWs with
    | [] => extractLines rest
    | c :: u =>
      if c = '#' then
        match tailCapture (u ++ nlJoin rest) with
        | some t => t
        | none => extractLines rest
      else extractLines rest

/-- `extractTitle` from the source: first `reH1` capture, trimmed; `""`
when the regex does not match. -/
def extractTitle (md : String) : String :=
  extractLines (splitNl md.data)

/-! Excerpt generation: `makeExcerpt`.

    s := reStripFences.ReplaceAllString(md, "")   // (?s) triple-backtick .*? triple-backtick
    s = reStripHead.ReplaceAllString(s, "")       // (?m)^#+ then greedy whitespace-star
    s = strings.TrimSpace(s)
    s = strings.ReplaceAll(s, "\n", " ")
    s = strings.Join(strings.Fields(s), " ")
    r := []rune(s)
    if len(r) > n { return string(r[:n]) + the one-rune ellipsis }
    return s

The scanning replacements are modelled with a fuel argument equal to the
input length; every recursive step consumes at least one character, so the
fuel never runs out on the actual argument.
-/

/-- The backtick character (U+0060), written via its code point. -/
def tick : Char := Char.ofNat 96

/-- Index of the first occurrence of three consecutive backticks. -/
def findTriple : List Char → Option Nat
  | a :: b :: c :: rest =>
    if a = tick ∧ b = tick ∧ c = tick then some 0
    else (findTriple (b :: c :: rest)).map (· + 1)
  | _ => none

/-- Global replacement of the non-greedy fenced-block regex by `""`:
repeatedly locate an opening triple backtick, the nearest closing triple
backtick after it, delete the whole span, and continue after it.  A lone
unpaired opener matches nothing (the regex needs both delimiters). -/
def stripFencesGo : Nat → List Char → List Char
  | 0, l => l
  | fuel + 1, l =>
    match findTriple l with
    | none => l
    | some i =>
      let rest := l.drop (i + 3)
      match findTriple rest with
      | none => l
      | some j => l.take i ++ stripFencesGo fuel (rest.drop (j + 3))

/-- `reStripFences.ReplaceAllString md ""`. -/
def stripFences (l : List Char) : List Char :=
  stripFencesGo l.length l

/-- Global replacement of `(?m)` caret `#+\s*` by `""`: at every line
start, delete a maximal run of `#` (at least one) together with the
following maximal whitespace run (which, being greedy, may span
newlines); scanning resumes right after the deleted span, which counts as
a line start exactly when the last deleted character was a newline. -/
def stripHeadsGo : Nat → Bool → List Char → List Char
  | 0, _, l => l
  | _ + 1, _, [] => []
  | fuel + 1, atStart, c :: rest =>
    if atStart ∧ c = '#' then
      let l1 := (c :: rest).dropWhile (· = '#')
      let run := l1.takeWhile regexWs
      stripHeadsGo fuel (run.getLast? = some '\n') (l1.drop run.length)
    else
      c :: stripHeadsGo fuel (c = '\n') rest

/-- `reStripHead.ReplaceAllString s ""`. -/
def stripHeads (l : List Char) : List Char :=
  stripHeadsGo l.length true l

/-- `strings.Fields`: maximal runs of non-space characters, space as per
`unicode.IsSpace`. -/
def fieldsGo : Nat → List Char → List (List Char)
  | 0, _ => []
  | _ + 1, [] => []
  | fuel + 1, l =>
    match l.dropWhile goIsSpace with
    | [] => []
    | c :: v =>
      (c :: v).takeWhile (fun c => !goIsSpace c) ::
        fieldsGo fuel ((c :: v).dropWhile (fun c => !goIsSpace c))

/-- `strings.Fields` on a code-point list. -/
def fieldsL (l : List Char) : List (List Char) :=
  fieldsGo l.length l

/-- `strings.Join words " "`. -/
def joinWords (ws : List (List Char)) : List Char :=
  [' '].intercalate ws

/-- The processed text of `makeExcerpt` before the length cut. -/
def excerptProcessed (l : List Char) : List Char :=
  let s1 := stripFences l
  let s2 := stripHeads s1
  let s3 := goTrimSpaceL s2
  let s4 := replaceChar '\n' ' ' s3
  joinWords (fieldsL s4)

/-- `makeExcerpt` on code-point lists: the processed text, cut at `n`
code points with a one-code-point ellipsis appended when longer. -/
def makeExcerptL (l : List Char) (n : Nat) : List Char :=
  let r := excerptProcessed l
  if r.length > n then r.take n ++ ['…'] else r

/-- `makeExcerpt` from the source. -/
def makeExcerpt (md : String) (n : Nat) : String :=
  ⟨makeExcerptL md.data n⟩

/-! Path helpers from Go's `path` package, used for the title fallback
`strings.TrimSuffix(path.Base(p), path.Ext(p))`. -/

/-- `path.Base`: empty path gives `"."`; otherwise trailing slashes are
removed, then everything up to the final slash; all-slash paths give
`"/"`. -/
def pathBaseL (l : List Char) : List Char :=
  if l.isEmpty then ['.']
  else
    let t := l.rdropWhile (· = '/')
    if t.isEmpty then ['/']
    else (t.reverse.takeWhile (fun c => !(c = '/'))).reverse

/-- `path.Ext`: the suffix starting at the final dot in the final
slash-separated element; empty when that element has no dot. -/
def pathExtL (l : List Char) : List Char :=
  let t := l.reverse.takeWhile (fun c => !(c = '/'))
  let u := t.takeWhile (fun c => !(c = '.'))
  if u.length = t.length then [] else '.' :: u.reverse

/-- The title fallback of `fetchPosts`: base name without extension. -/
def baseNameNoExt (l : List Char) : List Char :=
  trimSuffixL (pathExtL l) (pathBaseL l)

/-! Data model: `Post`, the cache, and the remote oracle. -/

/-- Command-line configuration (`Config`); fields that only parameterize
request URLs or the HTTP listener keep their string values but carry no
further structure here. -/
structure Config where
  addr : String := ""
  owner : String := ""
  repo : String := ""
  branch : String := ""
  contentDir : String
  githubToken : String := ""
  dataDir : String := ""

/-- One entry of the GitHub recursive tree response (`ghTreeResp`). -/
structure TreeEntry where
  path : String
  type : String
deriving DecidableEq

/-- The three pass-level failures of a sync pass: the tree listing request
failed; no markdown files were found under the content directory; files
existed but none could be fetched and rendered. -/
inductive SyncError where
  | listFailed
  | noMarkdownFound
  | nothingRendered
deriving DecidableEq

/-- Oracle for the network and the renderer: `tree` is the (possibly
failing) recursive tree listing, `file` the per-path content fetch
(`ghFetchFile`, base64 decoding absorbed), `render` the goldmark
conversion `md.Convert` (`none` = error). -/
structure Remote where
  tree : Option (List TreeEntry)
  file : String → Option String
  render : String → Option String

/-- A rendered post (`Post`). -/
structure Post where
  slug : String
  title : String
  excerpt : String
  html : String
  sourcePath : String
deriving DecidableEq

/-- The shared cache (`Cache`); `lastSync = none` models Go's zero
`time.Time`, and the mutex only serializes access, so it has no
counterpart in this sequential model. -/
structure Cache where
  posts : List Post
  bySlug : String → Option Post
  lastSync : Option Nat
  lastErr : Option SyncError

/-- A Go map built by successive assignments in list order (later
assignments win), as a lookup function. -/
def assocFold {β : Type} (key : β → String) (l : List β) : String → Option β :=
  l.foldl (fun m p => fun s => if s = key p then some p else m s) (fun _ => none)

/-- The slug index built by the assignment loop over `posts`. -/
def buildBySlug (posts : List Post) : String → Option Post :=
  assocFold (·.slug) posts

/-- The `rawBySlug` map built by the assignment loop of `fetchPosts`. -/
def buildRawMap (raws : List (String × String)) (s : String) : Option String :=
  (assocFold (·.1) raws s).map (·.2)

/-! The sync pass: `fetchPosts` and `syncOnce`. -/

/-- The content-directory prefix `strings.Trim(cfg.ContentDir, "/") + "/"`
used both for filtering tree entries and for building the relative path. -/
def dirSlashed (cfg : Config) : List Char :=
  trimCharL '/' cfg.contentDir.data ++ ['/']

/-- The filter of the tree loop: blob entries under the content directory
whose lower-cased path ends in `.md`. -/
def isMdCandidate (cfg : Config) (it : TreeEntry) : Bool :=
  it.type == "blob" && (dirSlashed cfg).isPrefixOf it.path.data &&
    ".md".data.isSuffixOf (it.path.data.map Char.toLower)

/-- Lexicographic order on code-point lists.  Go compares strings byte by
byte, and UTF-8 byte order coincides with code-point order. -/
def leChars : List Char → List Char → Bool
  | [], _ => true
  | _ :: _, [] => false
  | a :: as, b :: bs => if a = b then leChars as bs else decide (a < b)

/-- The ascending order used by `sort.Strings`. -/
def strLe (s t : String) : Prop :=
  leChars s.data t.data = true

instance : DecidableRel strLe :=
  fun s t => inferInstanceAs (Decidable (leChars s.data t.data = true))

/-- `leChars` is total. -/
theorem leChars_total : ∀ x y : List Char, leChars x y = true ∨ leChars y x = true := by
  intro x
  induction x with
  | nil => intro y; left; rfl
  | cons a as ih =>
    intro y
    cases y with
    | nil => right; rfl
    | cons b bs =>
      by_cases hab : a = b
      · subst hab
        simp only [leChars, if_pos rfl]
        exact ih bs
      · rcases Ne.lt_or_lt hab with h | h
        · left; simp [leChars, hab, h]
        · right
          simp [leChars, Ne.symm hab, h]

/-- `leChars` is transitive. -/
theorem leChars_trans : ∀ x y z : List Char,
    leChars x y = true → leChars y z = true → leChars x z = true := by
  intro x
  induction x with
  | nil => intro y z _ _; rfl
  | cons a as ih =>
    intro y z h1 h2
    cases y with
    | nil => simp [leChars] at h1
    | cons b bs =>
      cases z with
      | nil => simp [leChars] at h2
      | cons c cs =>
        simp only [leChars] at h1 h2 ⊢
        by_cases hab : a = b <;> by_cases hbc : b = c
        · subst hab; subst hbc
          rw [if_pos rfl] at h1 h2 ⊢
          exact ih bs cs h1 h2
        · subst hab
          rw [if_pos rfl] at h1
          rw [if_neg hbc] at h2 ⊢
          exact h2
        · subst hbc
          rw [if_neg hab] at h1 ⊢
          exact h1
        · rw [if_neg hab] at h1
          rw [if_neg hbc] at h2
          have h1l : a < b := by simpa using h1
          have h2l : b < c := by simpa using h2
          have hac : a < c := lt_trans h1l h2l
          rw [if_neg (ne_of_lt hac)]
          simpa using hac

instance : IsTotal String strLe :=
  ⟨fun s t => leChars_total s.data t.data⟩

instance : IsTrans String strLe :=
  ⟨fun _ _ _ h1 h2 => leChars_trans _ _ _ h1 h2⟩

/-- `sort.Strings`: ascending lexicographic sort. -/
def sortStrings (l : List String) : List String :=
  List.insertionSort strLe l

/-- The sorted candidate list `mdFiles` of `fetchPosts`. -/
def mdCandidates (cfg : Config) (entries : List TreeEntry) : List String :=
  sortStrings ((entries.filter (isMdCandidate cfg)).map (·.path))

/-- The relative path `strings.TrimSuffix(strings.TrimPrefix(p, prefix), ".md")`. -/
def relOf (cfg : Config) (p : String) : List Char :=
  trimSuffixL ".md".data (trimPrefixL (dirSlashed cfg) p.data)

/-- The title computed in the loop body: `extractTitle`, falling back to
the base name without extension when it is empty. -/
def titleFor (p : String) (body : String) : String :=
  let t := extractTitle body
  if t = "" then ⟨baseNameNoExt p.data⟩ else t

/-- One iteration of the `fetchPosts` loop for path `p`: `none` when the
fetch or the render fails (the file is skipped), otherwise the built
`Post` together with the raw body recorded for `rawBySlug`. -/
def buildPost (cfg : Config) (r : Remote) (p : String) : Option (Post × String) :=
  match r.file p with
  | none => none
  | some body =>
    match r.render body with
    | none => none
    | some html =>
      some ({ slug := slugify ⟨relOf cfg p⟩,
              title := titleFor p body,
              excerpt := makeExcerpt body 140,
              html := html,
              sourcePath := p }, body)

/-- The whole loop: skipped files contribute nothing, the rest contribute
in candidate order. -/
def fetchResults (cfg : Config) (r : Remote) (files : List String) :
    List (Post × String) :=
  files.filterMap (buildPost cfg r)

/-- The comparison of the final `sort.Slice`: `SourcePath` descending. -/
def postGeBySource (a b : Post) : Prop :=
  strLe b.sourcePath a.sourcePath

instance : DecidableRel postGeBySource :=
  fun a b => inferInstanceAs (Decidable (strLe b.sourcePath a.sourcePath))

instance : IsTotal Post postGeBySource :=
  ⟨fun a b => leChars_total b.sourcePath.data a.sourcePath.data⟩

instance : IsTrans Post postGeBySource :=
  ⟨fun _ _ _ h1 h2 => leChars_trans _ _ _ h2 h1⟩

/-- The final sort of `fetchPosts` (`sort.Slice`, `SourcePath` descending;
the Go sort is unstable, which matters only for duplicated source paths). -/
def sortPostsDesc (l : List Post) : List Post :=
  List.insertionSort postGeBySource l

/-- `fetchPosts`: list the tree (abort on failure), filter and sort the
markdown candidates (abort when empty), fetch/transform each candidate
(skipping per-file failures), abort when nothing was rendered, else
return the sorted posts and the raw-body assignments. -/
def fetchPosts (cfg : Config) (r : Remote) :
    Except SyncError (List Post × List (String × String)) :=
  match r.tree with
  | none => .error .listFailed
  | some entries =>
    let files := mdCandidates cfg entries
    if files.isEmpty then .error .noMarkdownFound
    else
      let results := fetchResults cfg r files
      if results.isEmpty then .error .nothingRendered
      else .ok (sortPostsDesc (results.map (·.1)),
                results.map fun x => (x.1.slug, x.2))

/-- `syncOnce` (GitHub-backed variant): always record the attempt time and
the attempt's error; replace the post list and the slug index exactly when
the fetch succeeded and found posts.  (The disk write that follows a
successful pass is modelled separately by `savePostsToDisk`.) -/
def syncOnce (cfg : Config) (r : Remote) (now : Nat) (cache : Cache) :
    Cache × Option SyncError :=
  match fetchPosts cfg r with
  | .error e => ({ cache with lastSync := some now, lastErr := some e }, some e)
  | .ok (posts, _) =>
    if posts.length > 0 then
      ({ posts := posts, bySlug := buildBySlug posts,
         lastSync := some now, lastErr := none }, none)
    else
      ({ cache with lastSync := some now, lastErr := none }, none)

/-! Disk persistence: `savePostsToDisk`, `loadPostsFromDisk`, and the
startup bootstrap.  The local directory is modelled as a partial map from
slug to raw markdown body (the file `slug + ".md"`; slugs never contain a
dot or a slash, so the naming is injective) plus the decoded manifest
`index.json` (`none` models a missing or unreadable manifest; the JSON
codec and the temp-file-plus-rename step are assumed faithful). -/

/-- One `posts` entry of `diskIndex`. -/
structure MetaEntry where
  slug : String
  title : String
  excerpt : String
  sourcePath : String
deriving DecidableEq

/-- The manifest `diskIndex`. -/
structure DiskIndex where
  generatedAt : Nat
  repoLabel : String
  posts : List MetaEntry
deriving DecidableEq

/-- The local data directory. -/
structure Disk where
  files : String → Option String
  index : Option DiskIndex

/-- `repoLabel` from the source. -/
def repoLabel (cfg : Config) : String :=
  cfg.owner ++ "/" ++ cfg.repo ++ ":" ++ cfg.branch ++ "/" ++
    (⟨trimCharL '/' cfg.contentDir.data⟩ : String)

/-- `os.WriteFile` into the modelled directory. -/
def writeFile (d : Disk) (name content : String) : Disk :=
  { d with files := fun s => if s = name then some content else d.files s }

/-- The metadata recorded in the manifest for one post. -/
def metaOf (p : Post) : MetaEntry :=
  { slug := p.slug, title := p.title, excerpt := p.excerpt,
    sourcePath := p.sourcePath }

/-- One iteration of the file-writing loop of `savePostsToDisk`: look up
the post's raw body; skip the post when it has none, else write its
markdown file. -/
def saveStep (raws : List (String × String)) (acc : Disk) (p : Post) : Disk :=
  match buildRawMap raws p.slug with
  | none => acc
  | some body => writeFile acc p.slug body

/-- `savePostsToDisk`: write one markdown file per post whose slug has a
recorded raw body (posts without one are skipped), then write the
manifest listing every post's metadata.  I/O errors are not modelled (the
oracle directory always accepts writes). -/
def savePostsToDisk (cfg : Config) (now : Nat) (posts : List Post)
    (raws : List (String × String)) (d : Disk) : Disk :=
  let d1 := posts.foldl (saveStep raws) d
  { d1 with index := some { generatedAt := now, repoLabel := repoLabel cfg,
                            posts := posts.map metaOf } }

/-- `loadPostsFromDisk`: fail when the manifest is missing or unreadable;
otherwise re-render each listed slug's body, skipping entries whose file
is missing or whose render fails. -/
def loadPostsFromDisk (render : String → Option String) (d : Disk) :
    Except Unit (List Post) :=
  match d.index with
  | none => .error ()
  | some idx =>
    .ok (idx.posts.filterMap fun it =>
      match d.files it.slug with
      | none => none
      | some raw =>
        match render raw with
        | none => none
        | some html =>
          some { slug := it.slug, title := it.title, excerpt := it.excerpt,
                 html := html, sourcePath := it.sourcePath })

/-- The cache as constructed in `main`: empty post list, empty slug map,
zero time, nil error. -/
def emptyCache : Cache :=
  { posts := [], bySlug := fun _ => none, lastSync := none, lastErr := none }

/-- The disk bootstrap of `main`: populate posts and slug index only when
the load succeeded and yielded at least one post; `lastSync` and
`lastErr` are never touched here. -/
def bootstrap (render : String → Option String) (d : Disk) : Cache :=
  match loadPostsFromDisk render d with
  | .error _ => emptyCache
  | .ok ps =>
    if ps.length > 0 then
      { emptyCache with posts := ps, bySlug := buildBySlug ps }
    else emptyCache

/-! Generic lemmas about the model's building blocks. -/

/-- A map built by successive assignments holds, at each key, the value of
the last assignment with that key. -/
theorem assocFold_eq_getLast {β : Type} (key : β → String) (l : List β) (s : String) :
    assocFold key l s = (l.filter fun p => decide (s = key p)).getLast? := by
  induction l using List.reverseRecOn with
  | nil => rfl
  | append_singleton l p ih =>
    unfold assocFold at ih ⊢
    rw [List.foldl_append, List.filter_append, List.getLast?_append]
    by_cases h : s = key p
    · simp [h]
    · simp [h, ih]

/-- `fetchPosts` succeeds exactly on a listed tree with a nonempty
candidate list and a nonempty result list, and then returns the sorted
posts and the raw-body assignments. -/
theorem fetchPosts_ok_iff (cfg : Config) (r : Remote) (ps : List Post)
    (raws : List (String × String)) :
    fetchPosts cfg r = .ok (ps, raws) ↔
      ∃ entries, r.tree = some entries ∧ mdCandidates cfg entries ≠ [] ∧
        fetchResults cfg r (mdCandidates cfg entries) ≠ [] ∧
        ps = sortPostsDesc ((fetchResults cfg r (mdCandidates cfg entries)).map (·.1)) ∧
        raws = (fetchResults cfg r (mdCandidates cfg entries)).map fun x => (x.1.slug, x.2) := by
  unfold fetchPosts
  cases htree : r.tree with
  | none => simp
  | some entries =>
    by_cases h1 : mdCandidates cfg entries = []
    · simp [h1]
    · by_cases h2 : fetchResults cfg r (mdCandidates cfg entries) = []
      · simp [h1, h2]
      · dsimp only
        rw [if_neg (by simp [List.isEmpty_iff, h1]),
          if_neg (by simp [List.isEmpty_iff, h2])]
        simp only [Except.ok.injEq, Prod.mk.injEq]
        constructor
        · rintro ⟨hps, hraws⟩
          exact ⟨entries, rfl, h1, h2, hps.symm, hraws.symm⟩
        · rintro ⟨entries2, he2, -, -, hps, hraws⟩
          cases he2
          exact ⟨hps.symm, hraws.symm⟩

/-- A successful pass always carries at least one post. -/
theorem fetchPosts_ok_posts_ne_nil {cfg : Config} {r : Remote} {ps : List Post}
    {raws : List (String × String)} (h : fetchPosts cfg r = .ok (ps, raws)) :
    ps ≠ [] := by
  obtain ⟨entries, -, -, hres, hps, -⟩ := (fetchPosts_ok_iff cfg r ps raws).mp h
  subst hps
  intro hnil
  have hperm := List.perm_insertionSort postGeBySource
    ((fetchResults cfg r (mdCandidates cfg entries)).map (·.1))
  rw [sortPostsDesc] at hnil
  rw [hnil] at hperm
  exact hres (List.map_eq_nil_iff.mp (List.Perm.nil_eq hperm).symm)

/-- Claim C1: after every call to `syncOnce`, `lastSync` holds the attempt
time and `lastErr` the attempt's error (none on success); the post list
and the slug index are replaced exactly when the pass returned no error
(success implies at least one post); an erroring pass leaves both
untouched. -/
theorem claim_C1 (cfg : Config) (r : Remote) (now : Nat) (cache : Cache) :
    (syncOnce cfg r now cache).1.lastSync = some now ∧
    (syncOnce cfg r now cache).1.lastErr = (syncOnce cfg r now cache).2 ∧
    ((syncOnce cfg r now cache).2 ≠ none →
      (syncOnce cfg r now cache).1.posts = cache.posts ∧
      (syncOnce cfg r now cache).1.bySlug = cache.bySlug) ∧
    ((syncOnce cfg r now cache).2 = none →
      ∃ ps raws, fetchPosts cfg r = .ok (ps, raws) ∧ ps ≠ [] ∧
        (syncOnce cfg r now cache).1.posts = ps ∧
        (syncOnce cfg r now cache).1.bySlug = buildBySlug ps) := by
  cases hf : fetchPosts cfg r with
  | error e => simp [syncOnce, hf]
  | ok pr =>
    obtain ⟨ps, raws⟩ := pr
    have hne : ps ≠ [] := fetchPosts_ok_posts_ne_nil hf
    have hpos : 0 < ps.length := List.length_pos.mpr hne
    refine ⟨?_, ?_, ?_, ?_⟩
    · simp [syncOnce, hf, hpos]
    · simp [syncOnce, hf, hpos]
    · simp [syncOnce, hf, hpos]
    · intro h
      exact ⟨ps, raws, rfl, hne, by simp [syncOnce, hf, hpos], by simp [syncOnce, hf, hpos]⟩

/-- Fixed example configuration: content directory `data`. -/
def cfgData : Config := { contentDir := "data" }

/-- A remote whose tree listing fails. -/
def rTreeFail : Remote :=
  { tree := none, file := fun _ => none, render := fun s => some s }

/-- A pre-existing published post, to watch for snapshot replacement. -/
def postEx : Post :=
  { slug := "old", title := "Old", excerpt := "o", html := "<p>o</p>",
    sourcePath := "data/old.md" }

/-- A cache with one published post. -/
def cacheEx : Cache :=
  { posts := [postEx], bySlug := buildBySlug [postEx], lastSync := some 3,
    lastErr := none }

/-- Witness for C1: a failing listing leaves the published posts and the
slug index untouched. -/
theorem claim_C1_witness :
    (syncOnce cfgData rTreeFail 7 cacheEx).1.posts = cacheEx.posts ∧
    (syncOnce cfgData rTreeFail 7 cacheEx).1.bySlug = cacheEx.bySlug :=
  (claim_C1 cfgData rTreeFail 7 cacheEx).2.2.1 (by decide)

/-- Claim C2: a sync pass fails exactly on a failed listing
(`listFailed`), an empty candidate list (`noMarkdownFound`), or an empty
result list (`nothingRendered`); a per-file failure (fetch or render) is
skipped and never fails the pass by itself. -/
theorem claim_C2 (cfg : Config) (r : Remote) :
    (r.tree = none → fetchPosts cfg r = .error .listFailed) ∧
    (∀ entries, r.tree = some entries → mdCandidates cfg entries = [] →
        fetchPosts cfg r = .error .noMarkdownFound) ∧
    (∀ entries, r.tree = some entries → mdCandidates cfg entries ≠ [] →
        fetchResults cfg r (mdCandidates cfg entries) = [] →
        fetchPosts cfg r = .error .nothingRendered) ∧
    (∀ entries, r.tree = some entries → mdCandidates cfg entries ≠ [] →
        fetchResults cfg r (mdCandidates cfg entries) ≠ [] →
        ∃ ps raws, fetchPosts cfg r = .ok (ps, raws)) ∧
    (∀ p files, buildPost cfg r p = none →
        fetchResults cfg r (p :: files) = fetchResults cfg r files) := by
  refine ⟨?_, ?_, ?_, ?_, ?_⟩
  · intro h; simp [fetchPosts, h]
  · intro entries h h1; simp [fetchPosts, h, h1]
  · intro entries h h1 h2; simp [fetchPosts, h, h1, h2]
  · intro entries h h1 h2
    exact ⟨_, _, (fetchPosts_ok_iff cfg r _ _).mpr ⟨entries, h, h1, h2, rfl, rfl⟩⟩
  · intro p files h
    simp [fetchResults, List.filterMap_cons, h]

/-- Witness for C2: the failed-listing case produces `listFailed`. -/
theorem claim_C2_witness : fetchPosts cfgData rTreeFail = .error .listFailed :=
  (claim_C2 cfgData rTreeFail).1 rfl

/-- The spec's two-file scenario: `data/a.md` fails to fetch, `data/b.md`
fetches with the two-line heading body; rendering is the identity. -/
def rScenario : Remote :=
  { tree := some [{ path := "data/a.md", type := "blob" },
                  { path := "data/b.md", type := "blob" }],
    file := fun p => if p = "data/b.md" then some "# Hello\nWorld" else none,
    render := fun s => some s }

set_option maxHeartbeats 2000000 in
/-- Counterexample to claim C3: in the stated scenario the single
resulting post has slug `b` and title `Hello` as claimed, but its excerpt
is `"Hello World"`, not `"World"` — the heading-stripping regex removes
only the `#` marker and its following whitespace, not the heading text. -/
theorem claim_C3_counterexample :
    ((syncOnce cfgData rScenario 1 emptyCache).1.posts.map fun p =>
        (p.slug, p.title, p.excerpt)) = [("b", "Hello", "Hello World")] ∧
    ∀ p ∈ (syncOnce cfgData rScenario 1 emptyCache).1.posts, p.excerpt ≠ "World" := by
  constructor
  · decide
  · decide

set_option maxHeartbeats 2000000 in
/-- Claim C3 as amended: in the scenario the snapshot holds exactly one
post, with slug `b`, title `Hello`, excerpt `"Hello World"` and source
path `data/b.md`; the pass reports no error and the slug index resolves
`b` to it. -/
theorem claim_C3 :
    ((syncOnce cfgData rScenario 1 emptyCache).1.posts.map fun p =>
        (p.slug, p.title, p.excerpt, p.sourcePath))
      = [("b", "Hello", "Hello World", "data/b.md")] ∧
    (syncOnce cfgData rScenario 1 emptyCache).2 = none ∧
    (((syncOnce cfgData rScenario 1 emptyCache).1.bySlug "b").map fun p => p.title)
      = some "Hello" := by
  refine ⟨by decide, by decide, by decide⟩

/-- Claim C7: the excerpt never exceeds the bound (140) plus the one-code-
point ellipsis; when the processed text is within the bound it is returned
unmodified (no ellipsis); when it exceeds the bound the result is the
first 140 code points plus the ellipsis.  Lengths count code points by
construction of the model. -/
theorem claim_C7 (md : String) :
    (makeExcerpt md 140).data.length ≤ 140 + 1 ∧
    ((excerptProcessed md.data).length ≤ 140 →
        makeExcerpt md 140 = ⟨excerptProcessed md.data⟩) ∧
    ((excerptProcessed md.data).length > 140 →
        (makeExcerpt md 140).data = (excerptProcessed md.data).take 140 ++ ['…']) := by
  refine ⟨?_, ?_, ?_⟩
  · simp only [makeExcerpt]
    unfold makeExcerptL
    dsimp only
    split
    · simp [List.length_take]
    · next h =>
      have : ¬(excerptProcessed md.data).length > 140 := h
      omega
  · intro h
    simp only [makeExcerpt]
    apply congrArg String.mk
    unfold makeExcerptL
    dsimp only
    rw [if_neg (by omega)]
  · intro h
    simp only [makeExcerpt]
    unfold makeExcerptL
    dsimp only
    rw [if_pos h]

/-- Witness for C7: a short document comes back as its processed text. -/
theorem claim_C7_witness :
    makeExcerpt "# Hi\nBody text" 140 = ⟨excerptProcessed "# Hi\nBody text".data⟩ :=
  (claim_C7 "# Hi\nBody text").2.1 (by decide)

/-- Claim C10: the startup bootstrap fills posts and slug index exactly
when loading from disk succeeded with at least one post, and in every case
leaves `lastSync` at the zero time and `lastErr` nil. -/
theorem claim_C10 (render : String → Option String) (d : Disk) :
    (bootstrap render d).lastSync = none ∧
    (bootstrap render d).lastErr = none ∧
    (∀ ps, loadPostsFromDisk render d = .ok ps → ps ≠ [] →
        (bootstrap render d).posts = ps ∧
        (bootstrap render d).bySlug = buildBySlug ps) ∧
    (∀ ps, loadPostsFromDisk render d = .ok ps → ps = [] →
        bootstrap render d = emptyCache) ∧
    (∀ e, loadPostsFromDisk render d = .error e → bootstrap render d = emptyCache) := by
  cases hl : loadPostsFromDisk render d with
  | error e => simp [bootstrap, hl, emptyCache]
  | ok ps =>
    by_cases hne : ps = []
    · subst hne
      simp [bootstrap, hl, emptyCache]
    · have hpos : 0 < ps.length := List.length_pos.mpr hne
      refine ⟨by simp [bootstrap, hl, hpos, emptyCache], by simp [bootstrap, hl, hpos, emptyCache],
        ?_, ?_, ?_⟩
      · intro ps2 h2 hne2
        cases h2
        simp [bootstrap, hl, hpos]
      · intro ps2 h2 hnil
        cases h2
        exact absurd hnil hne
      · intro e h2
        cases h2

/-- The identity renderer, for bootstrap examples. -/
def renderId : String → Option String := fun s => some s

/-- A one-post manifest entry on disk. -/
def mEx : MetaEntry :=
  { slug := "a", title := "A", excerpt := "e", sourcePath := "data/a.md" }

/-- A disk with one stored post. -/
def dEx : Disk :=
  { files := fun s => if s = "a" then some "# A\nbody" else none,
    index := some { generatedAt := 1, repoLabel := "o/r:b/data", posts := [mEx] } }

/-- The post `bootstrap` loads from `dEx`. -/
def pEx10 : Post :=
  { slug := "a", title := "A", excerpt := "e", html := "# A\nbody",
    sourcePath := "data/a.md" }

/-- Witness for C10: a successful nonempty load populates the cache. -/
theorem claim_C10_witness :
    (bootstrap renderId dEx).posts = [pEx10] ∧
    (bootstrap renderId dEx).bySlug = buildBySlug [pEx10] :=
  (claim_C10 renderId dEx).2.2.1 [pEx10] rfl (by decide)

/-! Character-level facts about `Char.toLower`, used for the slug claims. -/

/-- Characters that can appear in a `slugify` result other than the
fallback: lower-case ASCII letters, digits, dash. -/
def lowerOk (c : Char) : Bool :=
  ('a' ≤ c && c ≤ 'z') || ('0' ≤ c && c ≤ '9') || c = '-'

theorem char_eq_iff (a b : Char) : a = b ↔ a.toNat = b.toNat :=
  ⟨fun h => by rw [h], fun h => Char.ext (UInt32.ext h)⟩

theorem char_le_iff (a b : Char) : a ≤ b ↔ a.toNat ≤ b.toNat := Iff.rfl

/-- `Char.toLower` either fixes its argument (when it is not ASCII
upper-case) or shifts an upper-case letter down by 32. -/
theorem toLower_spec (c : Char) :
    (¬(65 ≤ c.toNat ∧ c.toNat ≤ 90) ∧ Char.toLower c = c) ∨
    (65 ≤ c.toNat ∧ c.toNat ≤ 90 ∧ (Char.toLower c).toNat = c.toNat + 32) := by
  by_cases h : 65 ≤ c.toNat ∧ c.toNat ≤ 90
  · right
    refine ⟨h.1, h.2, ?_⟩
    have hv : (c.toNat + 32).isValidChar := Or.inl (by omega)
    unfold Char.toLower
    rw [if_pos ⟨h.1, h.2⟩, Char.ofNat, dif_pos hv]
    rfl
  · left
    refine ⟨h, ?_⟩
    unfold Char.toLower
    rw [if_neg fun hc => h ⟨hc.1, hc.2⟩]

/-- Unpacking `lowerOk` to code-point ranges. -/
theorem toNat_of_lowerOk {c : Char} (h : lowerOk c = true) :
    (97 ≤ c.toNat ∧ c.toNat ≤ 122) ∨ (48 ≤ c.toNat ∧ c.toNat ≤ 57) ∨
      c.toNat = 45 := by
  simp only [lowerOk, Bool.or_eq_true, Bool.and_eq_true, decide_eq_true_eq] at h
  rcases h with (⟨h1, h2⟩ | ⟨h1, h2⟩) | h1
  · exact Or.inl ⟨h1, h2⟩
  · exact Or.inr (Or.inl ⟨h1, h2⟩)
  · exact Or.inr (Or.inr ((char_eq_iff c '-').mp h1))

/-- Packing code-point ranges into `lowerOk`. -/
theorem lowerOk_of_toNat {c : Char}
    (h : (97 ≤ c.toNat ∧ c.toNat ≤ 122) ∨ (48 ≤ c.toNat ∧ c.toNat ≤ 57) ∨
      c.toNat = 45) : lowerOk c = true := by
  simp only [lowerOk, Bool.or_eq_true, Bool.and_eq_true, decide_eq_true_eq]
  rcases h with ⟨h1, h2⟩ | ⟨h1, h2⟩ | h1
  · exact Or.inl (Or.inl ⟨h1, h2⟩)
  · exact Or.inl (Or.inr ⟨h1, h2⟩)
  · exact Or.inr ((char_eq_iff c '-').mpr h1)

/-- Unpacking `slugOk` to code-point ranges. -/
theorem toNat_of_slugOk {c : Char} (h : slugOk c = true) :
    (97 ≤ c.toNat ∧ c.toNat ≤ 122) ∨ (65 ≤ c.toNat ∧ c.toNat ≤ 90) ∨
      (48 ≤ c.toNat ∧ c.toNat ≤ 57) ∨ c.toNat = 45 ∨ c.toNat = 47 := by
  simp only [slugOk, Bool.or_eq_true, Bool.and_eq_true, decide_eq_true_eq] at h
  rcases h with (((⟨h1, h2⟩ | ⟨h1, h2⟩) | ⟨h1, h2⟩) | h1) | h1
  · exact Or.inl ⟨h1, h2⟩
  · exact Or.inr (Or.inl ⟨h1, h2⟩)
  · exact Or.inr (Or.inr (Or.inl ⟨h1, h2⟩))
  · exact Or.inr (Or.inr (Or.inr (Or.inl ((char_eq_iff c '-').mp h1))))
  · exact Or.inr (Or.inr (Or.inr (Or.inr ((char_eq_iff c '/').mp h1))))

/-- A character in a `lowerOk` position is fixed by `Char.toLower`. -/
theorem toLower_eq_self_of_lowerOk {c : Char} (h : lowerOk c = true) :
    Char.toLower c = c := by
  rcases toLower_spec c with ⟨-, h2⟩ | ⟨h1, h2, -⟩
  · exact h2
  · rcases toNat_of_lowerOk h with ⟨g1, g2⟩ | ⟨g1, g2⟩ | g1 <;> omega

/-- `lowerOk` characters are kept by the slug filter. -/
theorem slugOk_of_lowerOk {c : Char} (h : lowerOk c = true) : slugOk c = true := by
  simp only [lowerOk, Bool.or_eq_true, Bool.and_eq_true, decide_eq_true_eq] at h
  simp only [slugOk, Bool.or_eq_true, Bool.and_eq_true, decide_eq_true_eq]
  tauto

/-- `lowerOk` characters are none of the characters the slug pipeline
replaces or trims away (backslash, space, underscore, slash). -/
theorem lowerOk_ne {c : Char} (h : lowerOk c = true) :
    ¬c = '\\' ∧ ¬c = ' ' ∧ ¬c = '_' ∧ ¬c = '/' := by
  refine ⟨fun hx => ?_, fun hx => ?_, fun hx => ?_, fun hx => ?_⟩ <;>
    (subst hx; exact absurd h (by decide))

/-! List-level no-op lemmas. -/

theorem dropWhile_eq_self_of_all {p : Char → Bool} {l : List Char}
    (h : ∀ c ∈ l, p c = false) : l.dropWhile p = l := by
  cases l with
  | nil => rfl
  | cons a t => rw [List.dropWhile_cons, if_neg (by simp [h a (List.mem_cons_self a t)])]

theorem rdropWhile_eq_self_of_all {p : Char → Bool} {l : List Char}
    (h : ∀ c ∈ l, p c = false) : l.rdropWhile p = l :=
  List.rdropWhile_eq_self_iff.mpr fun hl => by
    simp [h _ (List.getLast_mem hl)]

theorem dropWhile_eq_self_of_head {p : Char → Bool} {l : List Char}
    (h : ∀ c, l.head? = some c → p c = false) : l.dropWhile p = l := by
  cases l with
  | nil => rfl
  | cons a t => rw [List.dropWhile_cons, if_neg (by simp [h a rfl])]

theorem rdropWhile_eq_self_of_getLast {p : Char → Bool} {l : List Char}
    (h : ∀ c, l.getLast? = some c → p c = false) : l.rdropWhile p = l :=
  List.rdropWhile_eq_self_iff.mpr fun hl => by
    simp [h _ (List.getLast?_eq_getLast l hl)]

theorem replaceChar_eq_self {a b : Char} {l : List Char}
    (h : ∀ c ∈ l, ¬c = a) : replaceChar a b l = l := by
  unfold replaceChar
  rw [List.map_congr_left fun c hc => if_neg (h c hc), List.map_id']

theorem map_toLower_eq_self {l : List Char}
    (h : ∀ c ∈ l, Char.toLower c = c) : l.map Char.toLower = l := by
  rw [List.map_congr_left h, List.map_id']

theorem trimCharL_subset (a : Char) (l : List Char) : trimCharL a l ⊆ l :=
  fun _ hc =>
    (List.dropWhile_suffix _).subset ((List.rdropWhile_prefix _ _).subset hc)

/-- Every character of a `slugify` result is a lower-case letter, a digit
or a dash. -/
theorem mem_slugifyL {l : List Char} {c : Char} (hc : c ∈ slugifyL l) :
    lowerOk c = true := by
  simp only [slugifyL] at hc
  split at hc
  · simp only [List.mem_cons, List.not_mem_nil, or_false] at hc
    rcases hc with rfl | rfl | rfl | rfl <;> decide
  · rcases List.mem_map.mp hc with ⟨d, hd, rfl⟩
    simp only [replaceChar] at hd
    rcases List.mem_map.mp hd with ⟨e, he, hde⟩
    have hse : slugOk e = true :=
      (List.mem_filter.mp ((trimCharL_subset '-' _) he)).2
    by_cases hslash : e = '/'
    · subst hslash
      simp only [if_pos rfl] at hde
      subst hde
      decide
    · rw [if_neg hslash] at hde
      subst hde
      rcases toNat_of_slugOk hse with ⟨g1, g2⟩ | ⟨g1, g2⟩ | ⟨g1, g2⟩ | g1 | g1
      · rw [toLower_eq_self_of_lowerOk (lowerOk_of_toNat (Or.inl ⟨g1, g2⟩))]
        exact lowerOk_of_toNat (Or.inl ⟨g1, g2⟩)
      · rcases toLower_spec e with ⟨hk, -⟩ | ⟨-, -, hk⟩
        · exact absurd ⟨g1, g2⟩ hk
        · exact lowerOk_of_toNat (Or.inl (by omega))
      · rw [toLower_eq_self_of_lowerOk (lowerOk_of_toNat (Or.inr (Or.inl ⟨g1, g2⟩)))]
        exact lowerOk_of_toNat (Or.inr (Or.inl ⟨g1, g2⟩))
      · rw [toLower_eq_self_of_lowerOk (lowerOk_of_toNat (Or.inr (Or.inr g1)))]
        exact lowerOk_of_toNat (Or.inr (Or.inr g1))
      · exact absurd ((char_eq_iff e '/').mpr g1) hslash

/-- `slugify` never returns the empty string. -/
theorem slugifyL_ne_nil (l : List Char) : slugifyL l ≠ [] := by
  simp only [slugifyL]
  split
  · decide
  · next h =>
    intro hnil
    rw [List.map_eq_nil_iff] at hnil
    rw [hnil] at h
    simp at h

/-- An already-normalized slug (all characters lower-case letters, digits
or dashes) that neither starts nor ends with a dash is fixed by
`slugifyL`. -/
theorem slugifyL_fixed (t : List Char) (hmem : ∀ c ∈ t, lowerOk c = true)
    (hne : t ≠ []) (h1 : t.head? ≠ some '-') (h2 : t.getLast? ≠ some '-') :
    slugifyL t = t := by
  have hbs : replaceChar '\\' '/' t = t :=
    replaceChar_eq_self fun c hc => (lowerOk_ne (hmem c hc)).1
  have hts : trimCharL '/' t = t := by
    unfold trimCharL
    rw [dropWhile_eq_self_of_all fun c hc => by
      simp [(lowerOk_ne (hmem c hc)).2.2.2]]
    exact rdropWhile_eq_self_of_all fun c hc => by
      simp [(lowerOk_ne (hmem c hc)).2.2.2]
  have hsp : replaceChar ' ' '-' t = t :=
    replaceChar_eq_self fun c hc => (lowerOk_ne (hmem c hc)).2.1
  have hun : replaceChar '_' '-' t = t :=
    replaceChar_eq_self fun c hc => (lowerOk_ne (hmem c hc)).2.2.1
  have hfl : List.filter slugOk t = t :=
    List.filter_eq_self.mpr fun c hc => slugOk_of_lowerOk (hmem c hc)
  have htd : trimCharL '-' t = t := by
    unfold trimCharL
    rw [dropWhile_eq_self_of_head fun c hc => by
      simp only [decide_eq_false_iff_not]
      intro hcontra
      exact h1 (hcontra ▸ hc)]
    apply rdropWhile_eq_self_of_getLast
    intro c hc
    simp only [decide_eq_false_iff_not]
    intro hcontra
    exact h2 (hcontra ▸ hc)
  have hsl : replaceChar '/' '-' t = t :=
    replaceChar_eq_self fun c hc => (lowerOk_ne (hmem c hc)).2.2.2
  have hlow : List.map Char.toLower t = t :=
    map_toLower_eq_self fun c hc => toLower_eq_self_of_lowerOk (hmem c hc)
  simp only [slugifyL, hbs, hts, hsp, hun, hfl, htd, hsl]
  rw [if_neg (by simp [List.isEmpty_iff, hne])]
  exact hlow

/-- Counterexample to claim C5: `slugify` is not idempotent.  On the
three-character input dash, slash, `a` the pipeline trims the leading
dash before turning the slash into a dash, so the result `-a` starts
with a dash; re-running `slugify` trims it away. -/
theorem claim_C5_counterexample :
    slugify "-/a" = "-a" ∧ slugify (slugify "-/a") = "a" ∧
    slugify (slugify "-/a") ≠ slugify "-/a" :=
  ⟨by decide, by decide, by decide⟩

/-- Claim C5 as amended: `slugify` is deterministic (it is a pure
function of its argument), and it is idempotent on every input whose
slugified form neither begins nor ends with a dash; a slugified form can
begin or end with a dash only when a trimmed-away dash had protected a
path separator at an end of the input. -/
theorem claim_C5 (s : String)
    (h1 : (slugify s).data.head? ≠ some '-')
    (h2 : (slugify s).data.getLast? ≠ some '-') :
    slugify (slugify s) = slugify s := by
  apply String.ext
  simp only [slugify] at h1 h2 ⊢
  exact slugifyL_fixed (slugifyL s.data) (fun c hc => mem_slugifyL hc)
    (slugifyL_ne_nil s.data) h1 h2

/-- Witness for C5: a typical path-derived slug is a fixed point. -/
theorem claim_C5_witness :
    slugify (slugify "notes/My Post") = slugify "notes/My Post" :=
  claim_C5 "notes/My Post" (by decide) (by decide)

/-! Claim C4: the slug normalization as the spec words it, versus the
code. -/

/-- Modelled from the claim's wording: a separator-like character — any
whitespace, an underscore, or a path separator (slash or backslash). -/
def specSep (c : Char) : Bool :=
  goIsSpace c || c = '_' || c = '/' || c = '\\'

/-- Modelled from the claim's wording: collapse every run of
separator-like characters to a single dash (fuel-driven scan). -/
def collapseSeps : Nat → List Char → List Char
  | 0, l => l
  | _ + 1, [] => []
  | fuel + 1, c :: rest =>
    if specSep c then '-' :: collapseSeps fuel (rest.dropWhile specSep)
    else c :: collapseSeps fuel rest

/-- Modelled from the claim's wording: the characters allowed to remain
after lower-casing (lower-case letters, digits, the separator dash). -/
def specAllowed (c : Char) : Bool :=
  ('a' ≤ c && c ≤ 'z') || ('0' ≤ c && c ≤ '9') || c = '-'

/-- Modelled from the claim's wording (the normalization rule of spec
section 3): lower-case; collapse each run of path separators, whitespace
or underscores to one separator; strip disallowed characters; trim
leading and trailing separators; fixed fallback when empty. -/
def slugSpecC4 (l : List Char) : List Char :=
  let a := l.map Char.toLower
  let b := collapseSeps a.length a
  let c := b.filter specAllowed
  let d := trimCharL '-' c
  if d.isEmpty then "post".data else d

/-- Counterexample to claim C4: for the repository path `data/a  b.md`
(two spaces) the code's slug is `a--b` — each space becomes its own dash,
runs are not collapsed — while the claimed normalization yields `a-b`. -/
theorem claim_C4_counterexample :
    slugify ⟨relOf cfgData "data/a  b.md"⟩ = "a--b" ∧
    (⟨slugSpecC4 (relOf cfgData "data/a  b.md")⟩ : String) = "a-b" ∧
    slugify ⟨relOf cfgData "data/a  b.md"⟩ ≠
      ⟨slugSpecC4 (relOf cfgData "data/a  b.md")⟩ :=
  ⟨by decide, by decide, by decide⟩

/-- The characters kept by the slug filter, stated after lower-casing. -/
def slugOkLower (c : Char) : Bool :=
  ('a' ≤ c && c ≤ 'z') || ('0' ≤ c && c ≤ '9') || c = '-' || c = '/'

theorem toNat_of_slugOkLower {c : Char} (h : slugOkLower c = true) :
    (97 ≤ c.toNat ∧ c.toNat ≤ 122) ∨ (48 ≤ c.toNat ∧ c.toNat ≤ 57) ∨
      c.toNat = 45 ∨ c.toNat = 47 := by
  simp only [slugOkLower, Bool.or_eq_true, Bool.and_eq_true, decide_eq_true_eq] at h
  rcases h with ((⟨h1, h2⟩ | ⟨h1, h2⟩) | h1) | h1
  · exact Or.inl ⟨h1, h2⟩
  · exact Or.inr (Or.inl ⟨h1, h2⟩)
  · exact Or.inr (Or.inr (Or.inl ((char_eq_iff c '-').mp h1)))
  · exact Or.inr (Or.inr (Or.inr ((char_eq_iff c '/').mp h1)))

theorem slugOkLower_of_toNat {c : Char}
    (h : (97 ≤ c.toNat ∧ c.toNat ≤ 122) ∨ (48 ≤ c.toNat ∧ c.toNat ≤ 57) ∨
      c.toNat = 45 ∨ c.toNat = 47) : slugOkLower c = true := by
  simp only [slugOkLower, Bool.or_eq_true, Bool.and_eq_true, decide_eq_true_eq]
  rcases h with ⟨h1, h2⟩ | ⟨h1, h2⟩ | h1 | h1
  · exact Or.inl (Or.inl (Or.inl ⟨h1, h2⟩))
  · exact Or.inl (Or.inl (Or.inr ⟨h1, h2⟩))
  · exact Or.inl (Or.inr ((char_eq_iff c '-').mpr h1))
  · exact Or.inr ((char_eq_iff c '/').mpr h1)

theorem slugOk_of_toNat {c : Char}
    (h : (97 ≤ c.toNat ∧ c.toNat ≤ 122) ∨ (65 ≤ c.toNat ∧ c.toNat ≤ 90) ∨
      (48 ≤ c.toNat ∧ c.toNat ≤ 57) ∨ c.toNat = 45 ∨ c.toNat = 47) :
    slugOk c = true := by
  simp only [slugOk, Bool.or_eq_true, Bool.and_eq_true, decide_eq_true_eq]
  rcases h with ⟨h1, h2⟩ | ⟨h1, h2⟩ | ⟨h1, h2⟩ | h1 | h1
  · exact Or.inl (Or.inl (Or.inl (Or.inl ⟨h1, h2⟩)))
  · exact Or.inl (Or.inl (Or.inl (Or.inr ⟨h1, h2⟩)))
  · exact Or.inl (Or.inl (Or.inr ⟨h1, h2⟩))
  · exact Or.inl (Or.inr ((char_eq_iff c '-').mpr h1))
  · exact Or.inr ((char_eq_iff c '/').mpr h1)

/-- For a character `a` that is neither an ASCII upper-case letter nor an
ASCII lower-case letter, `Char.toLower c = a` holds exactly for `c = a`. -/
theorem toLower_eq_iff_of_special {a : Char}
    (ha1 : a.toNat < 65 ∨ 90 < a.toNat) (ha2 : a.toNat < 97 ∨ 122 < a.toNat)
    (c : Char) : Char.toLower c = a ↔ c = a := by
  rcases toLower_spec c with ⟨-, h2⟩ | ⟨hu1, hu2, h3⟩
  · rw [h2]
  · constructor
    · intro h
      have hn := (char_eq_iff _ _).mp h
      omega
    · intro h
      subst h
      exact absurd (And.intro hu1 hu2) (by omega)

/-- Lower-casing commutes with a single-character replacement whose
source and target are not letters. -/
theorem replaceChar_map_toLower {a b : Char}
    (ha1 : a.toNat < 65 ∨ 90 < a.toNat) (ha2 : a.toNat < 97 ∨ 122 < a.toNat)
    (hb : Char.toLower b = b) (l : List Char) :
    replaceChar a b (l.map Char.toLower) = (replaceChar a b l).map Char.toLower := by
  unfold replaceChar
  rw [List.map_map, List.map_map]
  apply List.map_congr_left
  intro c _
  simp only [Function.comp_apply]
  by_cases h : c = a
  · rw [if_pos ((toLower_eq_iff_of_special ha1 ha2 c).mpr h), if_pos h, hb]
  · rw [if_neg (fun hcontra => h ((toLower_eq_iff_of_special ha1 ha2 c).mp hcontra)),
      if_neg h]

/-- Lower-casing commutes with dropping a leading run of a non-letter
character. -/
theorem dropWhile_map_toLower {a : Char}
    (ha1 : a.toNat < 65 ∨ 90 < a.toNat) (ha2 : a.toNat < 97 ∨ 122 < a.toNat)
    (l : List Char) :
    (l.map Char.toLower).dropWhile (· = a) =
      (l.dropWhile (· = a)).map Char.toLower := by
  rw [List.dropWhile_map]
  have hfun : ((fun x => decide (x = a)) ∘ Char.toLower) =
      fun x : Char => decide (x = a) :=
    funext fun c => decide_eq_decide.mpr (toLower_eq_iff_of_special ha1 ha2 c)
  rw [hfun]

/-- Lower-casing commutes with dropping a trailing run of a non-letter
character. -/
theorem rdropWhile_map_toLower {a : Char}
    (ha1 : a.toNat < 65 ∨ 90 < a.toNat) (ha2 : a.toNat < 97 ∨ 122 < a.toNat)
    (l : List Char) :
    (l.map Char.toLower).rdropWhile (· = a) =
      (l.rdropWhile (· = a)).map Char.toLower := by
  unfold List.rdropWhile
  rw [← List.map_reverse, dropWhile_map_toLower ha1 ha2, List.map_reverse]

/-- Lower-casing commutes with trimming a non-letter character. -/
theorem trimChar_map_toLower {a : Char}
    (ha1 : a.toNat < 65 ∨ 90 < a.toNat) (ha2 : a.toNat < 97 ∨ 122 < a.toNat)
    (l : List Char) :
    trimCharL a (l.map Char.toLower) = (trimCharL a l).map Char.toLower := by
  unfold trimCharL
  rw [dropWhile_map_toLower ha1 ha2, rdropWhile_map_toLower ha1 ha2]

/-- Pointwise: the lower-cased class after `Char.toLower` agrees with the
original class. -/
theorem slugOkLower_toLower (c : Char) :
    slugOkLower (Char.toLower c) = slugOk c := by
  rcases toLower_spec c with ⟨hn, h2⟩ | ⟨h1, h2, h3⟩
  · rw [h2, Bool.eq_iff_iff]
    constructor
    · intro h
      rcases toNat_of_slugOkLower h with g | g | g | g
      · exact slugOk_of_toNat (Or.inl g)
      · exact slugOk_of_toNat (Or.inr (Or.inr (Or.inl g)))
      · exact slugOk_of_toNat (Or.inr (Or.inr (Or.inr (Or.inl g))))
      · exact slugOk_of_toNat (Or.inr (Or.inr (Or.inr (Or.inr g))))
    · intro h
      rcases toNat_of_slugOk h with g | g | g | g | g
      · exact slugOkLower_of_toNat (Or.inl g)
      · exact absurd g hn
      · exact slugOkLower_of_toNat (Or.inr (Or.inl g))
      · exact slugOkLower_of_toNat (Or.inr (Or.inr (Or.inl g)))
      · exact slugOkLower_of_toNat (Or.inr (Or.inr (Or.inr g)))
  · have hL : slugOkLower (Char.toLower c) = true :=
      slugOkLower_of_toNat (Or.inl ⟨by omega, by omega⟩)
    have hR : slugOk c = true :=
      slugOk_of_toNat (Or.inr (Or.inl ⟨h1, h2⟩))
    rw [hL, hR]

/-- Filtering the lower-cased string with the lower-cased character class
equals lower-casing the filtered string. -/
theorem filter_slugOkLower_map_toLower (l : List Char) :
    (l.map Char.toLower).filter slugOkLower =
      (l.filter slugOk).map Char.toLower := by
  rw [List.filter_map]
  have hfun : (slugOkLower ∘ Char.toLower) = slugOk :=
    funext fun c => slugOkLower_toLower c
  rw [hfun]

/-- The spec-style pipeline of the amended claim C4: lower-case first,
then the same replacement, filter and trim steps as the code.  The
fallback needs no lower-casing. -/
def slugSpecAmended (l : List Char) : List Char :=
  let a := l.map Char.toLower
  let b := trimCharL '/' (replaceChar '\\' '/' a)
  let c := replaceChar '_' '-' (replaceChar ' ' '-' b)
  let d := c.filter slugOkLower
  let e := replaceChar '/' '-' (trimCharL '-' d)
  if e.isEmpty then "post".data else e

theorem isEmpty_map (f : Char → Char) (l : List Char) :
    (l.map f).isEmpty = l.isEmpty := by
  cases l <;> rfl

/-- Claim C4 as amended: the derived slug equals the prefix- and
extension-stripped path, lower-cased, with backslashes treated as path
separators, leading and trailing path separators trimmed, each single
space and underscore replaced by a dash (runs are not collapsed, and
other whitespace is stripped as disallowed rather than replaced),
characters other than letters, digits, dash and slash stripped, leading
and trailing dashes trimmed, each remaining path separator replaced by a
dash, with the fixed fallback when empty.  Stated as: `slugify` equals
the same pipeline applied to the lower-cased input with the lower-cased
character class. -/
theorem claim_C4 (s : String) : slugify s = ⟨slugSpecAmended s.data⟩ := by
  apply String.ext
  simp only [slugify]
  generalize s.data = l
  simp only [slugifyL, slugSpecAmended]
  rw [replaceChar_map_toLower (by decide) (by decide) (by decide),
    trimChar_map_toLower (by decide) (by decide),
    replaceChar_map_toLower (by decide) (by decide) (by decide),
    replaceChar_map_toLower (by decide) (by decide) (by decide),
    filter_slugOkLower_map_toLower,
    trimChar_map_toLower (by decide) (by decide),
    replaceChar_map_toLower (by decide) (by decide) (by decide),
    isEmpty_map]

/-- Claim C8: a successful pass's post list is sorted by source path
descending and is a permutation of everything the loop produced (posts
with colliding slugs included), and the slug index built from it maps
each slug to the last post with that slug in the sorted order. -/
theorem claim_C8 (cfg : Config) (r : Remote) (posts : List Post)
    (raws : List (String × String)) (h : fetchPosts cfg r = .ok (posts, raws)) :
    List.Sorted postGeBySource posts ∧
    (∃ entries, r.tree = some entries ∧
      posts.Perm ((fetchResults cfg r (mdCandidates cfg entries)).map (·.1))) ∧
    ∀ s, buildBySlug posts s =
      (posts.filter fun p => decide (s = p.slug)).getLast? := by
  obtain ⟨entries, he, -, -, hps, -⟩ := (fetchPosts_ok_iff cfg r posts raws).mp h
  refine ⟨?_, ⟨entries, he, ?_⟩, ?_⟩
  · rw [hps]
    exact List.sorted_insertionSort postGeBySource _
  · rw [hps]
    exact List.perm_insertionSort postGeBySource _
  · intro s
    exact assocFold_eq_getLast (·.slug) posts s

/-- The collision scenario: two files whose paths normalize to the same
slug `foo-bar`. -/
def rC8 : Remote :=
  { tree := some [{ path := "data/foo/bar.md", type := "blob" },
                  { path := "data/foo-bar.md", type := "blob" }],
    file := fun p =>
      if p = "data/foo/bar.md" then some "x"
      else if p = "data/foo-bar.md" then some "y" else none,
    render := fun s => some s }

/-- The post built from `data/foo/bar.md` (first in descending order). -/
def pC8a : Post :=
  { slug := "foo-bar", title := "bar", excerpt := "x", html := "x",
    sourcePath := "data/foo/bar.md" }

/-- The post built from `data/foo-bar.md` (last in descending order). -/
def pC8b : Post :=
  { slug := "foo-bar", title := "foo-bar", excerpt := "y", html := "y",
    sourcePath := "data/foo-bar.md" }

set_option maxHeartbeats 2000000 in
/-- Witness for C8: in the collision scenario both posts survive in the
ordered list, and the index resolves the shared slug to the last one. -/
theorem claim_C8_witness :
    buildBySlug [pC8a, pC8b] "foo-bar" =
      (([pC8a, pC8b]).filter fun p => decide ("foo-bar" = p.slug)).getLast? :=
  (claim_C8 cfgData rC8 [pC8a, pC8b] [("foo-bar", "y"), ("foo-bar", "x")]
    (by rfl)).2.2 "foo-bar"

/-- A loop iteration that produced a post rendered its recorded raw body
to that post's markup. -/
theorem buildPost_render {cfg : Config} {r : Remote} {p : String}
    {post : Post} {body : String}
    (h : buildPost cfg r p = some (post, body)) :
    r.render body = some post.html := by
  unfold buildPost at h
  rcases hf : r.file p with - | body0
  · rw [hf] at h
    cases h
  · rw [hf] at h
    dsimp only at h
    rcases hr : r.render body0 with - | html0
    · rw [hr] at h
      cases h
    · rw [hr] at h
      dsimp only at h
      injection h with h2
      injection h2 with h3 h4
      subst h4
      subst h3
      exact hr

/-- Every result pair of the fetch loop carries a body whose render
succeeded with that post's markup. -/
theorem fetchResults_render {cfg : Config} {r : Remote} {files : List String}
    {x : Post × String} (hx : x ∈ fetchResults cfg r files) :
    r.render x.2 = some x.1.html := by
  obtain ⟨p, -, hbp⟩ := List.mem_filterMap.mp hx
  obtain ⟨post, body⟩ := x
  exact buildPost_render hbp

/-- After the file-writing loop, any slug carried by one of the posts and
present in the raw map holds exactly the raw map's body. -/
theorem saveFiles_eq (raws : List (String × String)) :
    ∀ (posts : List Post) (d : Disk) (s : String),
      (∃ p ∈ posts, p.slug = s) → buildRawMap raws s ≠ none →
      (posts.foldl (saveStep raws) d).files s = buildRawMap raws s := by
  intro posts
  induction posts using List.reverseRecOn with
  | nil =>
    intro d s hex _
    obtain ⟨p, hp, -⟩ := hex
    simp at hp
  | append_singleton t p ih =>
    intro d s hex hne
    rw [List.foldl_append, List.foldl_cons, List.foldl_nil]
    unfold saveStep
    rcases hm : buildRawMap raws p.slug with - | body
    · obtain ⟨q, hq, hqs⟩ := hex
      rcases List.mem_append.mp hq with hq | hq
      · exact ih d s ⟨q, hq, hqs⟩ hne
      · have hqp : q = p := by simpa using hq
        subst hqp
        rw [hqs] at hm
        exact absurd hm hne
    · simp only [writeFile]
      by_cases hs : s = p.slug
      · rw [if_pos hs, hs, hm]
      · rw [if_neg hs]
        obtain ⟨q, hq, hqs⟩ := hex
        rcases List.mem_append.mp hq with hq | hq
        · exact ih d s ⟨q, hq, hqs⟩ hne
        · have hqp : q = p := by simpa using hq
          subst hqp
          exact absurd hqs.symm hs

/-- Loading a manifest built from posts by `metaOf` reproduces exactly
the posts' metadata when every entry loads to a post with the same
metadata. -/
theorem load_of_meta (f : MetaEntry → Option Post) :
    ∀ l : List Post,
      (∀ p ∈ l, ∃ q, f (metaOf p) = some q ∧ metaOf q = metaOf p) →
      ((l.map metaOf).filterMap f).map metaOf = l.map metaOf := by
  intro l
  induction l with
  | nil => intro _; rfl
  | cons p t ih =>
    intro h
    obtain ⟨q, hq1, hq2⟩ := h p (List.mem_cons_self p t)
    simp only [List.map_cons, List.filterMap_cons, hq1, hq2]
    rw [ih fun a ha => h a (List.mem_cons_of_mem p ha)]

/-- Claim C9: saving a successful pass's snapshot and raw bodies to disk
and loading them back (rendering re-applied) reproduces the same slugs,
titles, excerpts and source paths, in the same order. -/
theorem claim_C9 (cfg : Config) (r : Remote) (posts : List Post)
    (raws : List (String × String)) (h : fetchPosts cfg r = .ok (posts, raws))
    (d : Disk) (now : Nat) :
    (loadPostsFromDisk r.render (savePostsToDisk cfg now posts raws d)).toOption.map
        (fun l => l.map metaOf) = some (posts.map metaOf) := by
  obtain ⟨entries, he, -, -, hps, hraws⟩ := (fetchPosts_ok_iff cfg r posts raws).mp h
  have hcover : ∀ p ∈ posts, ∃ body html,
      buildRawMap raws p.slug = some body ∧ r.render body = some html := by
    intro p hp
    have hpm : p ∈ (fetchResults cfg r (mdCandidates cfg entries)).map (·.1) := by
      rw [hps] at hp
      exact (List.perm_insertionSort postGeBySource _).mem_iff.mp hp
    obtain ⟨x, hx, hx1⟩ := List.mem_map.mp hpm
    have hpair : (p.slug, x.2) ∈ raws := by
      rw [hraws]
      exact List.mem_map.mpr ⟨x, hx, by rw [hx1]⟩
    have hnefil : raws.filter (fun kv => decide (p.slug = kv.1)) ≠ [] :=
      List.ne_nil_of_mem (List.mem_filter.mpr ⟨hpair, by simp⟩)
    obtain ⟨kv, hkv⟩ : ∃ kv,
        (raws.filter (fun kv => decide (p.slug = kv.1))).getLast? = some kv :=
      ⟨_, List.getLast?_eq_getLast _ hnefil⟩
    have hkvmem : kv ∈ raws := by
      have : kv ∈ raws.filter (fun kv => decide (p.slug = kv.1)) := by
        have := List.getLast?_eq_getLast _ hnefil
        rw [hkv] at this
        injection this with h2
        rw [h2]
        exact List.getLast_mem hnefil
      exact List.mem_of_mem_filter this
    have hkvraws := hkvmem
    rw [hraws] at hkvraws
    obtain ⟨y, hy, hy2⟩ := List.mem_map.mp hkvraws
    refine ⟨kv.2, y.1.html, ?_, ?_⟩
    · unfold buildRawMap
      rw [assocFold_eq_getLast, hkv]
      rfl
    · have hr := fetchResults_render hy
      rw [← hy2]
      exact hr
  have hall : ∀ p ∈ posts, ∃ q,
      (fun it : MetaEntry =>
        match (posts.foldl (saveStep raws) d).files it.slug with
        | none => none
        | some raw =>
          match r.render raw with
          | none => none
          | some html =>
            some { slug := it.slug, title := it.title, excerpt := it.excerpt,
                   html := html, sourcePath := it.sourcePath }) (metaOf p) = some q ∧
      metaOf q = metaOf p := by
    intro p hp
    obtain ⟨body, html, hb, hr⟩ := hcover p hp
    have hfile : (posts.foldl (saveStep raws) d).files p.slug = some body := by
      rw [saveFiles_eq raws posts d p.slug ⟨p, hp, rfl⟩ (by rw [hb]; exact fun hc => by cases hc)]
      exact hb
    refine ⟨{ slug := p.slug, title := p.title, excerpt := p.excerpt,
              html := html, sourcePath := p.sourcePath }, ?_, rfl⟩
    dsimp only [metaOf]
    rw [hfile]
    dsimp only
    rw [hr]
  simp only [loadPostsFromDisk, savePostsToDisk]
  simp only [Except.toOption, Option.map]
  exact congrArg some (load_of_meta _ posts hall)

/-- An empty local directory. -/
def dEmpty : Disk := { files := fun _ => none, index := none }

set_option maxHeartbeats 2000000 in
/-- Witness for C9: the collision scenario round-trips its metadata. -/
theorem claim_C9_witness :
    (loadPostsFromDisk rC8.render (savePostsToDisk cfgData 7 [pC8a, pC8b]
        [("foo-bar", "y"), ("foo-bar", "x")] dEmpty)).toOption.map
      (fun l => l.map metaOf) = some ([pC8a, pC8b].map metaOf) :=
  claim_C9 cfgData rC8 [pC8a, pC8b] [("foo-bar", "y"), ("foo-bar", "x")]
    (by rfl) dEmpty 7

/-! Whitespace-absorption lemmas: the regex class is contained in
`unicode.IsSpace`, so a regex-side trim before `strings.TrimSpace` is
invisible. -/

theorem regexWs_goIsSpace {c : Char} (h : regexWs c = true) : goIsSpace c = true := by
  simp only [regexWs, Bool.or_eq_true, decide_eq_true_eq] at h
  rcases h with ((((rfl | rfl) | rfl) | rfl) | rfl) <;> decide

/-- Dropping the smaller whitespace class first does not change a
subsequent drop of the larger class. -/
theorem dropWhile_go_re (l : List Char) :
    (l.dropWhile regexWs).dropWhile goIsSpace = l.dropWhile goIsSpace := by
  induction l with
  | nil => rfl
  | cons c t ih =>
    by_cases hc : regexWs c = true
    · rw [List.dropWhile_cons, if_pos hc, ih, List.dropWhile_cons,
        if_pos (regexWs_goIsSpace hc)]
    · rw [List.dropWhile_cons, if_neg (by simp [hc])]

/-- `rdropWhile` on a cons cell. -/
theorem rdropWhile_cons_eq (q : Char → Bool) (c : Char) (t : List Char) :
    List.rdropWhile q (c :: t) =
      if (List.rdropWhile q t).isEmpty then (if q c then [] else [c])
      else c :: List.rdropWhile q t := by
  show (List.dropWhile q (c :: t).reverse).reverse = _
  rw [List.reverse_cons, List.dropWhile_append]
  by_cases hemp : List.dropWhile q t.reverse = []
  · rw [if_pos (by simp [hemp]), if_pos (by simp [List.rdropWhile, hemp])]
    by_cases hq : q c = true
    · rw [List.dropWhile_cons, if_pos hq]
      simp [hq]
    · rw [List.dropWhile_cons, if_neg (by simp [hq])]
      simp [hq]
  · rw [if_neg (by simp [hemp]), if_neg (by simp [List.rdropWhile, hemp])]
    rw [List.reverse_append, List.reverse_cons, List.reverse_nil, List.nil_append]
    rfl

/-- Dropping leading large-class whitespace commutes with dropping
trailing small-class whitespace. -/
theorem dropWhile_rdropWhile_comm (l : List Char) :
    (List.rdropWhile regexWs l).dropWhile goIsSpace =
      List.rdropWhile regexWs (l.dropWhile goIsSpace) := by
  induction l with
  | nil => rfl
  | cons c t ih =>
    rw [rdropWhile_cons_eq]
    by_cases hgo : goIsSpace c = true
    · rw [List.dropWhile_cons, if_pos hgo, ← ih]
      by_cases hemp : (List.rdropWhile regexWs t).isEmpty = true
      · rw [if_pos hemp, List.isEmpty_iff.mp hemp]
        by_cases hre : regexWs c = true
        · rw [if_pos hre]
        · rw [if_neg (by simp [hre]), List.dropWhile_cons, if_pos hgo]
      · rw [if_neg hemp, List.dropWhile_cons, if_pos hgo]
    · have hre : regexWs c = false := by
        rcases hx : regexWs c with - | -
        · rfl
        · exact absurd (regexWs_goIsSpace hx) (by simp [hgo])
      by_cases hemp : (List.rdropWhile regexWs t).isEmpty = true
      · rw [if_pos hemp, if_neg (by simp [hre]), List.dropWhile_cons,
          if_neg (by simp [hgo]), List.dropWhile_cons, if_neg (by simp [hgo]),
          rdropWhile_cons_eq, if_pos hemp, if_neg (by simp [hre])]
      · rw [if_neg hemp, List.dropWhile_cons, if_neg (by simp [hgo]),
          List.dropWhile_cons, if_neg (by simp [hgo]), rdropWhile_cons_eq,
          if_neg hemp]

/-- Trailing small-class then large-class trim equals the large-class
trim alone. -/
theorem rdropWhile_go_re (l : List Char) :
    List.rdropWhile goIsSpace (List.rdropWhile regexWs l) =
      List.rdropWhile goIsSpace l := by
  show (List.dropWhile goIsSpace (List.rdropWhile regexWs l).reverse).reverse = _
  rw [List.rdropWhile, List.reverse_reverse]
  have : List.dropWhile goIsSpace (List.dropWhile regexWs l.reverse) =
      List.dropWhile goIsSpace l.reverse := dropWhile_go_re l.reverse
  rw [this]
  rfl

/-- The double trim of the capture is absorbed by `strings.TrimSpace`. -/
theorem goTrim_absorb (u : List Char) :
    goTrimSpaceL ((u.dropWhile regexWs).rdropWhile regexWs) = goTrimSpaceL u := by
  unfold goTrimSpaceL
  rw [dropWhile_rdropWhile_comm, dropWhile_go_re, rdropWhile_go_re]

/-! Claim C6: the title scan, characterized line by line. -/

/-- Lines of `splitNl` never contain a newline. -/
theorem splitNl_no_nl : ∀ l : List Char, ∀ L ∈ splitNl l, '\n' ∉ L := by
  intro l
  induction l with
  | nil =>
    intro L hL
    simp only [splitNl, List.mem_cons, List.not_mem_nil, or_false] at hL
    subst hL
    exact List.not_mem_nil '\n'
  | cons c rest ih =>
    intro L hL
    simp only [splitNl] at hL
    by_cases hc : c = '\n'
    · rw [if_pos hc] at hL
      rcases List.mem_cons.mp hL with rfl | hmem
      · exact List.not_mem_nil '\n'
      · exact ih L hmem
    · rw [if_neg hc] at hL
      rcases hsp : splitNl rest with - | ⟨L0, ls⟩
      · rw [hsp] at hL
        simp only [List.mem_cons, List.not_mem_nil, or_false] at hL
        subst hL
        intro hmm
        rcases List.mem_cons.mp hmm with h | h
        · exact hc h.symm
        · exact List.not_mem_nil '\n' h
      · rw [hsp] at hL
        rcases List.mem_cons.mp hL with rfl | hmem
        · intro hmm
          rcases List.mem_cons.mp hmm with h | h
          · exact hc h.symm
          · exact ih L0 (by rw [hsp]; exact List.mem_cons_self L0 ls) h
        · exact ih L (by rw [hsp]; exact List.mem_cons_of_mem L0 hmem)

/-- A line whose first non-whitespace character is the heading marker. -/
def isHashLine (L : List Char) : Bool :=
  (L.dropWhile inlineWs).head? == some '#'

/-- A heading line in the amended sense: a single marker, then at least
one whitespace character, then a non-whitespace character on the line. -/
def goodHashLine (L : List Char) : Bool :=
  match L.dropWhile inlineWs with
  | [] => false
  | c :: u => c = '#' && !(u.takeWhile regexWs).isEmpty &&
      !(u.dropWhile regexWs).isEmpty

/-- The title the amended claim assigns to a heading line: everything
after the marker, trimmed. -/
def hashLineTitle (L : List Char) : String :=
  match L.dropWhile inlineWs with
  | [] => ""
  | c :: u => if c = '#' then ⟨goTrimSpaceL u⟩ else ""

theorem takeWhile_all {p : Char → Bool} :
    ∀ {l : List Char}, (∀ c ∈ l, p c = true) → l.takeWhile p = l := by
  intro l
  induction l with
  | nil => intro _; rfl
  | cons c t ih =>
    intro h
    rw [List.takeWhile_cons, if_pos (h c (List.mem_cons_self c t)),
      ih fun a ha => h a (List.mem_cons_of_mem c ha)]

/-- The joined remainder of later lines is empty or starts at a line
break. -/
theorem nlJoin_shape (ls : List (List Char)) :
    nlJoin ls = [] ∨ (nlJoin ls).head? = some '\n' := by
  cases ls with
  | nil => exact Or.inl rfl
  | cons a t => exact Or.inr rfl

/-- On a good heading tail, the regex tail always matches and captures
the rest of the line; trimmed, that is the trimmed text after the
marker. -/
theorem tailCapture_good {u : List Char} (hnl : '\n' ∉ u)
    (h1 : u.takeWhile regexWs ≠ []) (h2 : u.dropWhile regexWs ≠ [])
    {z : List Char} (hz : z = [] ∨ z.head? = some '\n') :
    tailCapture (u ++ z) = some ⟨goTrimSpaceL u⟩ := by
  have htw : (u ++ z).takeWhile regexWs = u.takeWhile regexWs := by
    rw [List.takeWhile_append]
    rw [if_neg]
    intro hlen
    have hself : u.takeWhile regexWs = u :=
      (List.takeWhile_prefix _).eq_of_length hlen
    have hsplit : u.takeWhile regexWs ++ u.dropWhile regexWs = u :=
      List.takeWhile_append_dropWhile regexWs u
    rw [hself] at hsplit
    have hlen2 := congrArg List.length hsplit
    rw [List.length_append] at hlen2
    exact h2 (List.eq_nil_of_length_eq_zero (by omega))
  have hdwa : (u ++ z).dropWhile regexWs = u.dropWhile regexWs ++ z := by
    rw [List.dropWhile_append, if_neg (by simp [List.isEmpty_iff, h2])]
  unfold tailCapture
  rw [htw, if_neg (by simp [List.isEmpty_iff, h1]), hdwa]
  rcases hv : u.dropWhile regexWs with - | ⟨c, v'⟩
  · exact absurd hv h2
  · rw [List.cons_append]
    dsimp only
    have hsubu : ∀ x ∈ c :: v', x ∈ u := by
      intro x hx
      have hs : List.dropWhile regexWs u ⊆ u :=
        (List.dropWhile_suffix regexWs).subset
      rw [hv] at hs
      exact hs hx
    have hline : (c :: (v' ++ z)).takeWhile (fun x => !(x = '\n')) = c :: v' := by
      rw [List.takeWhile_cons,
        if_pos (by
          simp only [Bool.not_eq_true']
          exact decide_eq_false fun hcc =>
            hnl (hcc ▸ hsubu c (List.mem_cons_self c v')))]
      rw [List.takeWhile_append]
      rw [if_pos (by
        rw [takeWhile_all fun a ha => by
          simp only [Bool.not_eq_true']
          exact decide_eq_false fun hcc =>
            hnl (hcc ▸ hsubu a (List.mem_cons_of_mem c ha))])]
      have hzt : z.takeWhile (fun x => !(x = '\n')) = [] := by
        rcases hz with rfl | hzh
        · rfl
        · rcases z with - | ⟨z0, zt⟩
          · rfl
          · injection hzh with hzh
            subst hzh
            rw [List.takeWhile_cons]
            simp
      rw [hzt, List.append_nil]
    rw [hline, ← hv]
    exact congrArg some (congrArg String.mk (goTrim_absorb u))

/-- When no line is a heading candidate, the scan returns the empty
title. -/
theorem extractLines_of_none : ∀ ls : List (List Char),
    ls.find? isHashLine = none → extractLines ls = "" := by
  intro ls
  induction ls with
  | nil => intro _; rfl
  | cons L rest ih =>
    intro h
    rw [List.find?_cons] at h
    cases hL : isHashLine L with
    | true =>
      rw [hL] at h
      cases h
    | false =>
      rw [hL] at h
      dsimp only at h
      rcases hdw : L.dropWhile inlineWs with - | ⟨c, u⟩
      · simp only [extractLines, hdw]
        exact ih h
      · have hc : ¬c = '#' := by
          intro hc
          rw [isHashLine, hdw, hc] at hL
          simp at hL
        simp only [extractLines, hdw]
        rw [if_neg hc]
        exact ih h

/-- When the first heading-candidate line is a good heading, the scan
returns exactly its trimmed text. -/
theorem extractLines_of_find : ∀ ls : List (List Char),
    (∀ L ∈ ls, '\n' ∉ L) → ∀ L0, ls.find? isHashLine = some L0 →
    goodHashLine L0 = true → extractLines ls = hashLineTitle L0 := by
  intro ls
  induction ls with
  | nil =>
    intro _ L0 hf _
    cases hf
  | cons L rest ih =>
    intro hnl L0 hf hg
    rw [List.find?_cons] at hf
    cases hL : isHashLine L with
    | true =>
      rw [hL] at hf
      dsimp only at hf
      injection hf with hf2
      subst hf2
      rcases hdw : L.dropWhile inlineWs with - | ⟨c, u⟩
      · rw [isHashLine, hdw] at hL
        simp at hL
      · have hc : c = '#' := by
          rw [isHashLine, hdw] at hL
          simpa using hL
        rw [goodHashLine, hdw] at hg
        simp only [Bool.and_eq_true, Bool.not_eq_true', decide_eq_true_eq] at hg
        obtain ⟨⟨-, hg1⟩, hg2⟩ := hg
        have hg1n : u.takeWhile regexWs ≠ [] := fun hx => by
          rw [hx] at hg1
          cases hg1
        have hg2n : u.dropWhile regexWs ≠ [] := fun hx => by
          rw [hx] at hg2
          cases hg2
        have hnlu : '\n' ∉ u := by
          intro hmm
          have hsfx : List.dropWhile inlineWs L ⊆ L :=
            (List.dropWhile_suffix inlineWs).subset
          rw [hdw] at hsfx
          exact hnl L (List.mem_cons_self L rest)
            (hsfx (List.mem_cons_of_mem c hmm))
        simp only [extractLines, hdw]
        rw [if_pos hc,
          tailCapture_good hnlu hg1n hg2n (nlJoin_shape rest)]
        simp only [hashLineTitle, hdw]
        rw [if_pos hc]
    | false =>
      rw [hL] at hf
      dsimp only at hf
      rcases hdw : L.dropWhile inlineWs with - | ⟨c, u⟩
      · simp only [extractLines, hdw]
        exact ih (fun M hM => hnl M (List.mem_cons_of_mem L hM)) L0 hf hg
      · have hc : ¬c = '#' := by
          intro hc
          rw [isHashLine, hdw, hc] at hL
          simp at hL
        simp only [extractLines, hdw]
        rw [if_neg hc]
        exact ih (fun M hM => hnl M (List.mem_cons_of_mem L hM)) L0 hf hg

/-- Counterexample to claim C6: a level-2 heading (two markers) never
matches — the regex wants exactly one `#` followed by whitespace — so the
title of a document whose only heading is `## Foo` falls back to the base
name, not to `Foo`. -/
theorem claim_C6_counterexample :
    extractTitle "## Foo\nbody" = "" ∧
    titleFor "data/x.md" "## Foo\nbody" = "x" ∧
    titleFor "data/x.md" "## Foo\nbody" ≠ "Foo" :=
  ⟨by decide, by decide, by decide⟩

/-- Claim C6 as amended: scanning lines in order, at the first line whose
leading whitespace is followed by `#`, if that single `#` is followed by
whitespace and then text on the same line, the extracted title is that
line's text after the marker, trimmed; when no line has a `#` first, the
extraction is empty; and an empty extraction makes the title fall back to
the file's base name without extension.  (A `##` line is such a first
candidate but matches only through the multi-line whitespace rule, never
as a heading of its own line.) -/
theorem claim_C6 (s : String) :
    (∀ L, (splitNl s.data).find? isHashLine = some L → goodHashLine L = true →
        extractTitle s = hashLineTitle L) ∧
    ((splitNl s.data).find? isHashLine = none → extractTitle s = "") ∧
    (∀ p : String, extractTitle s = "" → titleFor p s = ⟨baseNameNoExt p.data⟩) := by
  refine ⟨?_, ?_, ?_⟩
  · intro L hf hg
    exact extractLines_of_find (splitNl s.data) (splitNl_no_nl s.data) L hf hg
  · intro hf
    exact extractLines_of_none (splitNl s.data) hf
  · intro p ht
    simp [titleFor, ht]

/-- Witness for C6: an indented single-`#` heading after a plain line
yields its trimmed text. -/
theorem claim_C6_witness :
    extractTitle "intro\n  # My Title \nbody" =
      hashLineTitle ("  # My Title ".data) :=
  (claim_C6 "intro\n  # My Title \nbody").1 ("  # My Title ".data)
    (by decide) (by decide)
